import Mathlib

/-!
Verification of the wot-mcp bridge (WoT Thing Descriptions exposed as MCP
tools and resources).  The definitions below are a shallow embedding of the
TypeScript sources:

* `src/server/EventBuffer.ts`   → `WotMcp.EventBuffer` and its operations
* `src/translator/ThingTranslator.ts` → `sanitizeId`, `extractThingId`,
  `buildActionInputSchema`, `translateAction`
* `src/server/McpServer.ts`     → registry / session state (`McpState`),
  tool and resource registration (`initServerRegs`, `applyThingRegs`),
  event fan-out (`handleWotEvent`), session multiplexing
  (`handleMcpRequest`), registration flow (`registerThing`), and the
  tool bodies (`invokePropertySetter`, `writePropertyTool`,
  `invokeActionTool`).

JavaScript maps are embedded as insertion-ordered association lists,
JavaScript `Date` timestamps as integers (milliseconds), and JSON values
as the inductive type `Json`.  Fallible paths return `Except`/`Option`.
-/

namespace WotMcp

/-! ## JSON values (payloads and JSON-Schema fragments) -/

inductive Json where
  | null
  | bool (b : Bool)
  | num (n : Int)
  | str (s : String)
  | arr (xs : List Json)
  | obj (fields : List (String × Json))

/-- JavaScript truthiness of a JSON value (objects and arrays are truthy,
`null` / `false` / `0` / the empty string are falsy). -/
def jsTruthy : Json → Bool
  | Json.null => false
  | Json.bool b => b
  | Json.num n => !(n = 0)
  | Json.str s => !(s = "")
  | Json.arr _ => true
  | Json.obj _ => true

/-- Member access `v.key` on a JSON value; `none` models `undefined`. -/
def getField (v : Json) (key : String) : Option Json :=
  match v with
  | Json.obj fields => fields.lookup key
  | _ => none

def Json.isObj : Json → Bool
  | Json.obj _ => true
  | _ => false

/-! ## Association lists standing for JavaScript `Map`s -/

/-- `Map.get(k)` on an insertion-ordered association list. -/
def findKey {β : Type} (k : String) : List (String × β) → Option β
  | [] => none
  | (k', v) :: rest => if k' = k then some v else findKey k rest

/-- `Map.set(k, v)`: overwrite in place, else append (insertion order). -/
def setKey {β : Type} (k : String) (v : β) : List (String × β) → List (String × β)
  | [] => [(k, v)]
  | (k', v') :: rest => if k' = k then (k, v) :: rest else (k', v') :: setKey k v rest

theorem findKey_setKey_self {β : Type} (k : String) (v : β) (m : List (String × β)) :
    findKey k (setKey k v m) = some v := by
  induction m with
  | nil => simp [findKey, setKey]
  | cons hd tl ih =>
    obtain ⟨k', v'⟩ := hd
    by_cases h : k' = k <;> simp [findKey, setKey, h, ih]

theorem findKey_setKey_ne {β : Type} (k k' : String) (v : β) (m : List (String × β))
    (h : k' ≠ k) : findKey k (setKey k' v m) = findKey k m := by
  induction m with
  | nil => simp [findKey, setKey, h]
  | cons hd tl ih =>
    obtain ⟨k'', v''⟩ := hd
    by_cases h2 : k'' = k'
    · subst h2
      simp [findKey, setKey, h]
    · by_cases h3 : k'' = k <;> simp [findKey, setKey, h2, h3, Ne.symm h, ih]

theorem findKey_append_last {β : Type} (k : String) (v : β) (m : List (String × β))
    (h : findKey k m = none) : findKey k (m ++ [(k, v)]) = some v := by
  induction m with
  | nil => simp [findKey]
  | cons hd tl ih =>
    obtain ⟨k', v'⟩ := hd
    by_cases h2 : k' = k
    · simp [findKey, h2] at h
    · simp [findKey, h2] at h ⊢
      exact ih h

/-! ## EventBuffer (src/server/EventBuffer.ts) -/

structure BufferedEvent where
  timestamp : Int
  eventType : String
  data : String
deriving DecidableEq

structure EventBuffer where
  buffers : List (String × List BufferedEvent)
  maxEvents : Nat
  eventTtlMs : Int
  lastUpdated : List (String × Int)
deriving DecidableEq

/-- Constructor defaults: `maxEventsPerUri ?? 100`, `eventTtlMs ?? 3600000`. -/
def EventBuffer.ofOptions (maxEventsPerUri : Option Nat) (eventTtlMs : Option Int) :
    EventBuffer :=
  { buffers := [],
    maxEvents := maxEventsPerUri.getD 100,
    eventTtlMs := eventTtlMs.getD 3600000,
    lastUpdated := [] }

/-- `push(uri, eventType, data)`; `now` stands for `Date.now()` at the call.
Appends the timestamped event, then evicts the oldest entry when the
per-uri count exceeds `maxEvents`. -/
def EventBuffer.push (eb : EventBuffer) (now : Int) (uri eventType : String)
    (data : String) : EventBuffer × BufferedEvent :=
  let buffer := (findKey uri eb.buffers).getD []
  let event : BufferedEvent := ⟨now, eventType, data⟩
  let buffer1 := buffer ++ [event]
  let buffer2 := if eb.maxEvents < buffer1.length then buffer1.tail else buffer1
  ({ eb with
      buffers := setKey uri buffer2 eb.buffers,
      lastUpdated := setKey uri now eb.lastUpdated },
   event)

/-- `pruneExpired(uri)`: drop entries whose timestamp is not newer than
`now - eventTtlMs`; the map is only rewritten when something was dropped. -/
def EventBuffer.pruneExpired (eb : EventBuffer) (now : Int) (uri : String) : EventBuffer :=
  match findKey uri eb.buffers with
  | none => eb
  | some buffer =>
    let cutoff := now - eb.eventTtlMs
    let pruned := buffer.filter (fun e => decide (cutoff < e.timestamp))
    if pruned.length ≠ buffer.length then
      { eb with buffers := setKey uri pruned eb.buffers }
    else eb

/-- `get(uri)`: prune lazily, then return the remaining entries (and the
updated buffer state, since pruning is a read-time side effect). -/
def EventBuffer.get (eb : EventBuffer) (now : Int) (uri : String) :
    EventBuffer × List BufferedEvent :=
  let eb1 := eb.pruneExpired now uri
  (eb1, (findKey uri eb1.buffers).getD [])

/-- `getSince(uri, since)`: events of `get` strictly newer than `since`. -/
def EventBuffer.getSince (eb : EventBuffer) (now : Int) (uri : String) (since : Int) :
    List BufferedEvent :=
  ((eb.get now uri).2).filter (fun e => decide (since < e.timestamp))

/-- JavaScript `events.slice(-count)` for a natural `count`: `-0` is `0`, so
`count = 0` yields the whole array; otherwise the last `count` elements. -/
def sliceNeg {α : Type} (l : List α) (count : Nat) : List α :=
  if count = 0 then l else l.drop (l.length - count)

/-- `getRecent(uri, count)`: `get(uri).slice(-count)`. -/
def EventBuffer.getRecent (eb : EventBuffer) (now : Int) (uri : String) (count : Nat) :
    List BufferedEvent :=
  sliceNeg (eb.get now uri).2 count

/-- `count(uri)`: buffered length without pruning. -/
def EventBuffer.countUri (eb : EventBuffer) (uri : String) : Nat :=
  ((findKey uri eb.buffers).getD []).length

/-- `getLastUpdated(uri)`. -/
def EventBuffer.getLastUpdated (eb : EventBuffer) (uri : String) : Option Int :=
  findKey uri eb.lastUpdated

/-- `initialize(uri)`: create an empty per-uri buffer unless one exists. -/
def EventBuffer.initBuffer (eb : EventBuffer) (uri : String) : EventBuffer :=
  match findKey uri eb.buffers with
  | some _ => eb
  | none => { eb with buffers := setKey uri [] eb.buffers }

/-! ## Helper notions for the buffer-bound proof -/

/-- The last `n` elements of a list. -/
def takeLastN {α : Type} (n : Nat) (l : List α) : List α :=
  l.drop (l.length - n)

/-- Arguments of one `push` call: (timestamp, eventType, data). -/
def toEvent (e : Int × String × String) : BufferedEvent := ⟨e.1, e.2.1, e.2.2⟩

/-- A sequence of `push` calls onto the same uri. -/
def pushList (eb : EventBuffer) (uri : String) (evs : List (Int × String × String)) :
    EventBuffer :=
  evs.foldl (fun b e => (b.push e.1 uri e.2.1 e.2.2).1) eb

theorem takeLastN_length {α : Type} (n : Nat) (l : List α) :
    (takeLastN n l).length = min n l.length := by
  unfold takeLastN
  rw [List.length_drop]
  omega

theorem takeLastN_of_le {α : Type} (n : Nat) (l : List α) (h : l.length ≤ n) :
    takeLastN n l = l := by
  unfold takeLastN
  have : l.length - n = 0 := by omega
  rw [this, List.drop_zero]

theorem takeLastN_idem_append {α : Type} (n : Nat) (l r : List α) :
    takeLastN n (takeLastN n l ++ r) = takeLastN n (l ++ r) := by
  unfold takeLastN
  by_cases hr : n ≤ r.length
  · have e1 : ∀ x : List α, (x ++ r).drop ((x ++ r).length - n) = r.drop (r.length - n) := by
      intro x
      have hx : (x ++ r).length - n = x.length + (r.length - n) := by
        rw [List.length_append]; omega
      rw [hx, List.drop_append]
    rw [e1, e1]
  · push_neg at hr
    have hA : (l.drop (l.length - n)).length = l.length - (l.length - n) :=
      List.length_drop _ _
    have h1 : ((l.drop (l.length - n)) ++ r).length - n ≤ (l.drop (l.length - n)).length := by
      rw [List.length_append, hA]; omega
    rw [List.drop_append_of_le_length h1, List.drop_drop]
    have h2 : (l ++ r).length - n ≤ l.length := by
      rw [List.length_append]; omega
    rw [List.drop_append_of_le_length h2]
    have h3 : (l.length - n) + ((l.drop (l.length - n) ++ r).length - n) =
        (l ++ r).length - n := by
      rw [List.length_append, hA, List.length_append]; omega
    rw [h3]

theorem push_buffers_lookup (eb : EventBuffer) (now : Int) (uri ty d : String) :
    findKey uri (eb.push now uri ty d).1.buffers =
      some (let b1 := ((findKey uri eb.buffers).getD []) ++ [⟨now, ty, d⟩];
            if eb.maxEvents < b1.length then b1.tail else b1) := by
  simp only [EventBuffer.push]
  exact findKey_setKey_self _ _ _

theorem push_step_takeLastN (b : List BufferedEvent) (e : BufferedEvent) (m : Nat)
    (h : b.length ≤ m) :
    (if m < (b ++ [e]).length then (b ++ [e]).tail else b ++ [e]) =
      takeLastN m (b ++ [e]) := by
  by_cases hlt : m < (b ++ [e]).length
  · simp only [hlt, if_pos]
    have hm : b.length = m := by simp at hlt; omega
    unfold takeLastN
    have : (b ++ [e]).length - m = 1 := by simp; omega
    rw [this]
    cases b with
    | nil => simp at hm; subst hm; simp
    | cons x xs => simp
  · simp only [hlt, if_neg, not_false_iff]
    exact (takeLastN_of_le m _ (by simp at hlt ⊢; omega)).symm

theorem push_maxEvents (eb : EventBuffer) (now : Int) (uri ty d : String) :
    (eb.push now uri ty d).1.maxEvents = eb.maxEvents := rfl

/-- Core invariant of repeated pushes: starting at or below the cap, the
per-uri buffer is always the suffix of everything ever pushed, clipped to
the cap. -/
theorem pushList_lookup (uri : String) (evs : List (Int × String × String)) :
    ∀ eb : EventBuffer,
      ((findKey uri eb.buffers).getD []).length ≤ eb.maxEvents →
      ((findKey uri (pushList eb uri evs).buffers).getD []) =
        takeLastN eb.maxEvents (((findKey uri eb.buffers).getD []) ++ evs.map toEvent) := by
  induction evs with
  | nil =>
    intro eb h
    simp [pushList]
    exact (takeLastN_of_le _ _ h).symm
  | cons e rest ih =>
    intro eb h
    have hstep : pushList eb uri (e :: rest) =
        pushList (eb.push e.1 uri e.2.1 e.2.2).1 uri rest := rfl
    rw [hstep]
    set eb1 := (eb.push e.1 uri e.2.1 e.2.2).1 with heb1
    have hlook : findKey uri eb1.buffers =
        some (let b1 := ((findKey uri eb.buffers).getD []) ++ [⟨e.1, e.2.1, e.2.2⟩];
              if eb.maxEvents < b1.length then b1.tail else b1) :=
      push_buffers_lookup eb e.1 uri e.2.1 e.2.2
    have hmax : eb1.maxEvents = eb.maxEvents := rfl
    have hstep2 : ((findKey uri eb1.buffers).getD []) =
        takeLastN eb.maxEvents (((findKey uri eb.buffers).getD []) ++ [toEvent e]) := by
      rw [hlook]
      simp only [Option.getD_some]
      exact push_step_takeLastN _ _ _ h
    have hlen : ((findKey uri eb1.buffers).getD []).length ≤ eb1.maxEvents := by
      rw [hstep2, hmax, takeLastN_length]
      omega
    have := ih eb1 hlen
    rw [this, hmax, hstep2, takeLastN_idem_append]
    simp [toEvent]

/-- C2 helper: one push never pushes the per-uri length above the cap. -/
theorem push_length_le (eb : EventBuffer) (now : Int) (uri ty d : String)
    (h : ((findKey uri eb.buffers).getD []).length ≤ eb.maxEvents) :
    ((findKey uri (eb.push now uri ty d).1.buffers).getD []).length ≤ eb.maxEvents := by
  rw [push_buffers_lookup]
  simp only [Option.getD_some]
  rw [push_step_takeLastN _ _ _ h, takeLastN_length]
  omega

/-- C2: pushing `maxEvents + k` events (k ≥ 1) onto a fresh resource leaves
exactly `maxEvents` entries, the oldest `k` evicted first. -/
theorem wot_c2 (eb : EventBuffer) (uri : String) (evs : List (Int × String × String))
    (m k : Nat) (hmax : eb.maxEvents = m) (hfresh : findKey uri eb.buffers = none)
    (hlen : evs.length = m + k) (hk : 1 ≤ k) :
    ((findKey uri (pushList eb uri evs).buffers).getD []) = (evs.drop k).map toEvent
    ∧ ((findKey uri (pushList eb uri evs).buffers).getD []).length = m
    ∧ (∀ (eb2 : EventBuffer) (now : Int) (uri2 ty d : String),
        ((findKey uri2 eb2.buffers).getD []).length ≤ eb2.maxEvents →
        ((findKey uri2 (eb2.push now uri2 ty d).1.buffers).getD []).length ≤ eb2.maxEvents) := by
  have hbase : ((findKey uri eb.buffers).getD []).length ≤ eb.maxEvents := by
    rw [hfresh]; simp
  have hmain := pushList_lookup uri evs eb hbase
  rw [hfresh] at hmain
  simp only [Option.getD_none, List.nil_append] at hmain
  have hdrop : takeLastN eb.maxEvents (evs.map toEvent) = (evs.drop k).map toEvent := by
    unfold takeLastN
    have hX : (evs.map toEvent).length - eb.maxEvents = k := by
      rw [List.length_map, hlen, hmax]; omega
    rw [hX, ← List.map_drop]
  refine ⟨by rw [hmain, hdrop], ?_,
    fun eb2 now uri2 ty d h => push_length_le eb2 now uri2 ty d h⟩
  rw [hmain, takeLastN_length, List.length_map, hlen, hmax]
  omega

/-- Witness for C2: with the default cap 100, pushing 101 events onto a
fresh resource leaves exactly the last 100. -/
theorem wot_c2_witness :
    ((findKey "wot://lamp/events/overheated"
        (pushList (EventBuffer.ofOptions none none) "wot://lamp/events/overheated"
          ((List.range 101).map (fun i => ((i : Int), "overheated", "payload")))).buffers).getD [])
      = ((((List.range 101).map (fun i => ((i : Int), "overheated", "payload"))).drop 1).map toEvent) := by
  have h := wot_c2 (EventBuffer.ofOptions none none) "wot://lamp/events/overheated"
    ((List.range 101).map (fun i => ((i : Int), "overheated", "payload")))
    100 1 rfl rfl (by decide) (by omega)
  exact h.1

/-! ## TTL pruning (C3) and getRecent (C10) -/

/-- Everything `get` returns survived the TTL cutoff. -/
theorem get_mem_cutoff (eb : EventBuffer) (now : Int) (uri : String) :
    ∀ e ∈ (eb.get now uri).2, now - eb.eventTtlMs < e.timestamp := by
  intro e he
  unfold EventBuffer.get at he
  simp only at he
  unfold EventBuffer.pruneExpired at he
  cases hfind : findKey uri eb.buffers with
  | none =>
    rw [hfind] at he
    simp [hfind] at he
  | some buffer =>
    rw [hfind] at he
    simp only at he
    by_cases hne :
        (buffer.filter (fun e => decide (now - eb.eventTtlMs < e.timestamp))).length ≠
          buffer.length
    · rw [if_pos hne] at he
      simp only [findKey_setKey_self, Option.getD_some] at he
      exact of_decide_eq_true (List.mem_filter.mp he).2
    · rw [if_neg hne] at he
      push_neg at hne
      have hall := List.filter_length_eq_length.mp hne
      rw [hfind] at he
      simp only [Option.getD_some] at he
      exact of_decide_eq_true (hall e he)

/-- C3: `get` prunes entries older than the TTL at read time — an event
pushed at time `t` and read at a time `now` with `now - t ≥ eventTtlMs` is
absent from the result — and `getSince` / `getRecent` are views over the
same pruned set. -/
theorem wot_c3 (eb : EventBuffer) (now t : Int) (uri ty d : String)
    (hexp : eb.eventTtlMs ≤ now - t) :
    (∀ e ∈ (((eb.push t uri ty d).1).get now uri).2,
        now - ((eb.push t uri ty d).1).eventTtlMs < e.timestamp)
    ∧ BufferedEvent.mk t ty d ∉ (((eb.push t uri ty d).1).get now uri).2
    ∧ (∀ (eb2 : EventBuffer) (since : Int),
        eb2.getSince now uri since =
          ((eb2.get now uri).2).filter (fun e => decide (since < e.timestamp)))
    ∧ (∀ (eb2 : EventBuffer) (n : Nat),
        eb2.getRecent now uri n = sliceNeg (eb2.get now uri).2 n) := by
  refine ⟨get_mem_cutoff _ now uri, ?_, fun eb2 since => rfl, fun eb2 n => rfl⟩
  intro hmem
  have hcut := get_mem_cutoff ((eb.push t uri ty d).1) now uri _ hmem
  have httl : ((eb.push t uri ty d).1).eventTtlMs = eb.eventTtlMs := rfl
  rw [httl] at hcut
  simp only at hcut
  omega

/-- Witness for C3: with the default 1-hour TTL, an event pushed at time 0
is gone when read at time 3600000. -/
theorem wot_c3_witness :
    BufferedEvent.mk 0 "overheated" "payload" ∉
      ((((EventBuffer.ofOptions none none).push 0 "wot://lamp/events/overheated"
          "overheated" "payload").1).get 3600000 "wot://lamp/events/overheated").2 :=
  (wot_c3 (EventBuffer.ofOptions none none) 3600000 0 "wot://lamp/events/overheated"
    "overheated" "payload" (by decide)).2.1

/-- C10: `getRecent(uri, 0)` returns all currently buffered (non-expired)
events — JavaScript `slice(-0)` takes the whole array — while for n ≥ 1 it
returns the last n events. -/
theorem wot_c10 (eb : EventBuffer) (now : Int) (uri : String) :
    eb.getRecent now uri 0 = (eb.get now uri).2
    ∧ (∀ n : Nat, 1 ≤ n → eb.getRecent now uri n = takeLastN n (eb.get now uri).2) := by
  constructor
  · unfold EventBuffer.getRecent sliceNeg
    simp
  · intro n hn
    unfold EventBuffer.getRecent sliceNeg takeLastN
    rw [if_neg (by omega)]

/-- Witness for C10: a buffer holding three fresh events returns all three
for `getRecent(uri, 0)` and only the last one for `getRecent(uri, 1)`. -/
theorem wot_c10_witness :
    (((pushList (EventBuffer.ofOptions none none) "wot://lamp/events/motion"
        [(0, "motion", "a"), (1, "motion", "b"), (2, "motion", "c")]).getRecent 10
        "wot://lamp/events/motion" 0) =
      ((pushList (EventBuffer.ofOptions none none) "wot://lamp/events/motion"
        [(0, "motion", "a"), (1, "motion", "b"), (2, "motion", "c")]).get 10
        "wot://lamp/events/motion").2)
    ∧ ((pushList (EventBuffer.ofOptions none none) "wot://lamp/events/motion"
        [(0, "motion", "a"), (1, "motion", "b"), (2, "motion", "c")]).getRecent 10
        "wot://lamp/events/motion" 1) =
      takeLastN 1 ((pushList (EventBuffer.ofOptions none none) "wot://lamp/events/motion"
        [(0, "motion", "a"), (1, "motion", "b"), (2, "motion", "c")]).get 10
        "wot://lamp/events/motion").2 := by
  have h := wot_c10 (pushList (EventBuffer.ofOptions none none) "wot://lamp/events/motion"
    [(0, "motion", "a"), (1, "motion", "b"), (2, "motion", "c")]) 10 "wot://lamp/events/motion"
  exact ⟨h.1, h.2 1 (by omega)⟩

/-! ## ThingTranslator (src/translator/ThingTranslator.ts) -/

/-- A character that survives the sanitizer: lowercase letter or digit
(the character class `[a-z0-9]`). -/
def isLowerAlnum (c : Char) : Bool :=
  (decide ('a' ≤ c) && decide (c ≤ 'z')) || (decide ('0' ≤ c) && decide (c ≤ '9'))

/-- The global replace `/[^a-z0-9]+/g → '-'`: every maximal run of
characters outside `[a-z0-9]` becomes a single hyphen.  The `inRun` flag
records whether the previous character was part of such a run. -/
def collapseRuns : List Char → Bool → List Char
  | [], _ => []
  | c :: rest, inRun =>
    if isLowerAlnum c then c :: collapseRuns rest false
    else if inRun then collapseRuns rest true
    else '-' :: collapseRuns rest true

/-- The `^-` half of `/^-|-$/g`: remove one leading hyphen. -/
def dropOneLeading : List Char → List Char
  | [] => []
  | c :: rest => if c = '-' then rest else c :: rest

/-- The `-$` half of `/^-|-$/g`: remove one trailing hyphen. -/
def dropOneTrailing : List Char → List Char
  | [] => []
  | [c] => if c = '-' then [] else [c]
  | c :: b :: rest => c :: dropOneTrailing (b :: rest)

/-- `sanitizeId`: lowercase, collapse non-alphanumeric runs to single
hyphens, trim one leading and one trailing hyphen. -/
def sanitizeId (s : String) : String :=
  String.mk (dropOneTrailing (dropOneLeading (collapseRuns (s.data.map Char.toLower) false)))

/-- `td.id.split(/[:/]/)`: split on every colon or slash. -/
def splitDelims : List Char → List Char → List (List Char)
  | [], acc => [acc.reverse]
  | c :: rest, acc =>
    if c = ':' || c = '/' then acc.reverse :: splitDelims rest []
    else splitDelims rest (c :: acc)

/-- Last colon/slash-delimited segment (`parts[parts.length - 1]`). -/
def lastSegment (s : String) : String :=
  String.mk ((splitDelims s.data []).getLastD [])

/-- `extractThingId`: last segment of a truthy identifier, sanitized;
otherwise the sanitized title. -/
def extractThingId (id : Option String) (title : String) : String :=
  match id with
  | some s => if s = "" then sanitizeId title else sanitizeId (lastSegment s)
  | none => sanitizeId title

/-! Structural facts about the sanitizer. -/

/-- Every emitted character is lowercase alphanumeric or a hyphen. -/
theorem collapseRuns_charset (l : List Char) :
    ∀ b, ∀ c ∈ collapseRuns l b, isLowerAlnum c = true ∨ c = '-' := by
  induction l with
  | nil => intro b c hc; simp [collapseRuns] at hc
  | cons x rest ih =>
    intro b c hc
    by_cases hx : isLowerAlnum x
    · rw [collapseRuns, if_pos hx] at hc
      rcases List.mem_cons.mp hc with h | h
      · exact Or.inl (h ▸ hx)
      · exact ih false c h
    · rw [collapseRuns, if_neg hx] at hc
      by_cases hb : b
      · rw [if_pos hb] at hc
        exact ih true c hc
      · rw [if_neg hb] at hc
        rcases List.mem_cons.mp hc with h | h
        · exact Or.inr h
        · exact ih true c h

/-- In run-mode the output never starts with a hyphen. -/
theorem collapseRuns_true_head (l : List Char) :
    ∀ c rest, collapseRuns l true = c :: rest → isLowerAlnum c = true := by
  induction l with
  | nil => intro c rest h; simp [collapseRuns] at h
  | cons x xs ih =>
    intro c rest h
    by_cases hx : isLowerAlnum x
    · rw [collapseRuns, if_pos hx] at h
      injection h with h1 _
      rwa [← h1]
    · rw [collapseRuns, if_neg hx, if_pos rfl] at h
      exact ih c rest h

/-- No two consecutive hyphens anywhere in the output. -/
def noDoubleDash : List Char → Prop
  | [] => True
  | [_] => True
  | a :: b :: rest => ¬(a = '-' ∧ b = '-') ∧ noDoubleDash (b :: rest)

theorem isLowerAlnum_ne_dash {c : Char} (h : isLowerAlnum c = true) : c ≠ '-' := by
  intro he
  subst he
  simp [isLowerAlnum] at h

theorem noDoubleDash_cons_of (a : Char) (l : List Char)
    (hhd : ∀ b rest, l = b :: rest → ¬(a = '-' ∧ b = '-')) (hl : noDoubleDash l) :
    noDoubleDash (a :: l) := by
  cases l with
  | nil => trivial
  | cons b rest => exact ⟨hhd b rest rfl, hl⟩

theorem collapseRuns_noDoubleDash (l : List Char) : ∀ b, noDoubleDash (collapseRuns l b) := by
  induction l with
  | nil => intro b; rw [collapseRuns]; trivial
  | cons x xs ih =>
    intro b
    by_cases hx : isLowerAlnum x
    · rw [collapseRuns, if_pos hx]
      refine noDoubleDash_cons_of x _ ?_ (ih false)
      intro c rest _ hcontra
      exact isLowerAlnum_ne_dash hx hcontra.1
    · rw [collapseRuns, if_neg hx]
      by_cases hb : b
      · rw [if_pos hb]; exact ih true
      · rw [if_neg hb]
        refine noDoubleDash_cons_of '-' _ ?_ (ih true)
        intro c rest heq hcontra
        exact isLowerAlnum_ne_dash (collapseRuns_true_head xs c rest heq) hcontra.2

theorem noDoubleDash_tail (a : Char) (l : List Char) (h : noDoubleDash (a :: l)) :
    noDoubleDash l := by
  cases l with
  | nil => trivial
  | cons b rest => exact h.2

theorem mem_dropOneLeading (x : Char) (l : List Char) (h : x ∈ dropOneLeading l) : x ∈ l := by
  cases l with
  | nil => simp [dropOneLeading] at h
  | cons c rest =>
    rw [dropOneLeading] at h
    by_cases hc : c = '-'
    · rw [if_pos hc] at h
      exact List.mem_cons_of_mem c h
    · rwa [if_neg hc] at h

theorem mem_dropOneTrailing (x : Char) (l : List Char) (h : x ∈ dropOneTrailing l) : x ∈ l := by
  induction l with
  | nil => simp [dropOneTrailing] at h
  | cons c rest ih =>
    cases rest with
    | nil =>
      rw [dropOneTrailing] at h
      by_cases hc : c = '-'
      · rw [if_pos hc] at h
        simp at h
      · rwa [if_neg hc] at h
    | cons b rest2 =>
      rw [dropOneTrailing] at h
      rcases List.mem_cons.mp h with h1 | h1
      · exact h1 ▸ List.mem_cons_self c _
      · exact List.mem_cons_of_mem c (ih h1)

theorem noDoubleDash_dropOneLeading (l : List Char) (h : noDoubleDash l) :
    noDoubleDash (dropOneLeading l) := by
  cases l with
  | nil => exact h
  | cons c rest =>
    rw [dropOneLeading]
    by_cases hc : c = '-'
    · rw [if_pos hc]
      exact noDoubleDash_tail c rest h
    · rwa [if_neg hc]

theorem head_dropOneLeading (l : List Char) (h : noDoubleDash l) :
    (dropOneLeading l).head? ≠ some '-' := by
  cases l with
  | nil => simp [dropOneLeading]
  | cons c rest =>
    rw [dropOneLeading]
    by_cases hc : c = '-'
    · rw [if_pos hc]
      cases rest with
      | nil => simp
      | cons b rest2 =>
        subst hc
        intro hb
        simp only [List.head?_cons, Option.some.injEq] at hb
        exact h.1 ⟨rfl, hb⟩
    · rw [if_neg hc]
      intro hb
      simp only [List.head?_cons, Option.some.injEq] at hb
      exact hc hb

theorem head_dropOneTrailing (l : List Char) (h : l.head? ≠ some '-') :
    (dropOneTrailing l).head? ≠ some '-' := by
  cases l with
  | nil => simp [dropOneTrailing]
  | cons c rest =>
    simp only [List.head?_cons, ne_eq, Option.some.injEq] at h
    cases rest with
    | nil =>
      rw [dropOneTrailing]
      by_cases hc : c = '-'
      · rw [if_pos hc]; simp
      · rw [if_neg hc]
        simpa using h
    | cons b rest2 =>
      rw [dropOneTrailing]
      simpa using h

theorem getLast_dropOneTrailing (l : List Char) (h : noDoubleDash l) :
    (dropOneTrailing l).getLast? ≠ some '-' := by
  induction l with
  | nil => simp [dropOneTrailing]
  | cons c rest ih =>
    cases rest with
    | nil =>
      rw [dropOneTrailing]
      by_cases hc : c = '-'
      · rw [if_pos hc]; simp
      · rw [if_neg hc]
        simpa using hc
    | cons b rest2 =>
      rw [dropOneTrailing]
      cases rest2 with
      | nil =>
        rw [dropOneTrailing]
        by_cases hb : b = '-'
        · rw [if_pos hb]
          subst hb
          intro hcontra
          simp only [List.getLast?_singleton, Option.some.injEq] at hcontra
          exact h.1 ⟨hcontra, rfl⟩
        · rw [if_neg hb]
          rw [List.getLast?_cons_cons]
          simpa using hb
      | cons b2 rest3 =>
        have hT : dropOneTrailing (b :: b2 :: rest3) = b :: dropOneTrailing (b2 :: rest3) := by
          rw [dropOneTrailing]
        rw [hT, List.getLast?_cons_cons, ← hT]
        exact ih (noDoubleDash_tail c _ h)

/-- Structural guarantees of the sanitizer: only `[a-z0-9-]` characters, no
leading hyphen, no trailing hyphen. -/
theorem sanitizeId_props (s : String) :
    (∀ c ∈ (sanitizeId s).data, isLowerAlnum c = true ∨ c = '-')
    ∧ (sanitizeId s).data.head? ≠ some '-'
    ∧ (sanitizeId s).data.getLast? ≠ some '-' := by
  have hdata : (sanitizeId s).data =
      dropOneTrailing (dropOneLeading (collapseRuns (s.data.map Char.toLower) false)) := rfl
  set L := collapseRuns (s.data.map Char.toLower) false with hL
  have hndd : noDoubleDash L := collapseRuns_noDoubleDash _ false
  refine ⟨?_, ?_, ?_⟩
  · intro c hc
    rw [hdata] at hc
    exact collapseRuns_charset _ false c
      (mem_dropOneLeading c L (mem_dropOneTrailing c _ hc))
  · rw [hdata]
    exact head_dropOneTrailing _ (head_dropOneLeading L hndd)
  · rw [hdata]
    exact getLast_dropOneTrailing _ (noDoubleDash_dropOneLeading L hndd)

/-- C5: the thing id is the sanitized last colon/slash segment of the
identifier (title as fallback); `"urn:dev:ops:My Light_01"` derives
`"my-light-01"`, and every derived id uses only `[a-z0-9-]` with no leading
or trailing hyphen. -/
theorem wot_c5 :
    extractThingId (some "urn:dev:ops:My Light_01") "Fallback Title" = "my-light-01"
    ∧ ∀ (id : Option String) (title : String),
        (∀ c ∈ (extractThingId id title).data, isLowerAlnum c = true ∨ c = '-')
        ∧ (extractThingId id title).data.head? ≠ some '-'
        ∧ (extractThingId id title).data.getLast? ≠ some '-' := by
  refine ⟨by decide, ?_⟩
  intro id title
  match id with
  | none => exact sanitizeId_props title
  | some s =>
    rw [extractThingId]
    by_cases hs : s = ""
    · rw [if_pos hs]
      exact sanitizeId_props title
    · rw [if_neg hs]
      exact sanitizeId_props (lastSegment s)

/-- Witness for C5: the derived id for the urn identifier starts and ends
with a non-hyphen, and its first character is in `[a-z0-9]`. -/
theorem wot_c5_witness :
    (extractThingId (some "urn:dev:ops:My Light_01") "T").data.head? ≠ some '-'
    ∧ (extractThingId (some "urn:dev:ops:My Light_01") "T").data.getLast? ≠ some '-'
    ∧ (isLowerAlnum 'm' = true ∨ 'm' = '-') := by
  have h := wot_c5
  exact ⟨(h.2 (some "urn:dev:ops:My Light_01") "T").2.1,
    (h.2 (some "urn:dev:ops:My Light_01") "T").2.2,
    (h.2 (some "urn:dev:ops:My Light_01") "T").1 'm' (by decide)⟩

/-! ## Action translation (buildActionInputSchema) and invocation -/

/-- The pass-through test of `buildActionInputSchema`:
`schema.type === 'object' && schema.properties` (the `properties` member
must exist and be truthy). -/
def isObjectWithProps (schema : Json) : Bool :=
  (match getField schema "type" with
   | some (Json.str s) => s = "object"
   | _ => false)
  && (match getField schema "properties" with
      | some v => jsTruthy v
      | none => false)

/-- The input schema of a translated action: `type: 'object'` with these
`properties` and optional `required`. -/
structure ActionInputSchema where
  properties : Json
  required : Option Json

/-- `buildActionInputSchema(input)`: pass an object-with-properties schema
through; otherwise wrap the primitive schema as
`properties: (value : <original>), required: [value]` and flag it.  A falsy
`input` (`!input`) yields the empty object schema, unwrapped. -/
def buildActionInputSchema : Option Json → ActionInputSchema × Bool
  | none => (⟨Json.obj [], none⟩, false)
  | some schema =>
    if jsTruthy schema = false then (⟨Json.obj [], none⟩, false)
    else if isObjectWithProps schema then
      (⟨(getField schema "properties").getD Json.null, getField schema "required"⟩, false)
    else
      (⟨Json.obj [("value", schema)], some (Json.arr [Json.str "value"])⟩, true)

/-- The declared shape of one WoT action inside a Thing Description. -/
structure WotActionDef where
  description : Option String
  input : Option Json

structure TranslatedAction where
  name : String
  description : String
  inputSchema : ActionInputSchema
  wotName : String
  thingId : String
  inputWrapped : Bool

/-- One entry of `translateActions`. -/
def translateAction (thingId tdTitle name : String) (a : WotActionDef) :
    TranslatedAction :=
  let r := buildActionInputSchema a.input
  { name := thingId ++ "_" ++ name,
    description := a.description.getD ("Execute " ++ name ++ " on " ++ tdTitle),
    inputSchema := r.1,
    wotName := name,
    thingId := thingId,
    inputWrapped := r.2 }

/-- `invokeActionTool`: pick the params passed to the external invoker —
`action.inputWrapped && args ? args.value : args`. -/
def invokeParams (wrapped : Bool) (args : Option Json) : Option Json :=
  if wrapped && (match args with | some a => jsTruthy a | none => false) then
    args.bind (fun a => getField a "value")
  else args

/-- The external call made by `invokeActionTool`. -/
structure InvokeCall where
  thingId : String
  actionName : String
  params : Option Json

def invokeActionTool (action : TranslatedAction) (args : Option Json) : InvokeCall :=
  ⟨action.thingId, action.wotName, invokeParams action.inputWrapped args⟩

/-- C4: for an action with a declared (object-valued, hence truthy) input
schema, `inputWrapped` is true iff that schema is not an
object-with-properties schema; the wrapped schema is
`properties: (value : original), required: [value]`; and a wrapped tool
invoked with `(value : x)` calls the external invoker with bare `x`. -/
theorem wot_c4 (s : Json) (a : WotActionDef) (hin : a.input = some s)
    (hobj : s.isObj = true) (thingId tdTitle name : String) :
    ((translateAction thingId tdTitle name a).inputWrapped = true ↔
      isObjectWithProps s = false)
    ∧ (isObjectWithProps s = false →
        (translateAction thingId tdTitle name a).inputSchema.properties =
          Json.obj [("value", s)]
        ∧ (translateAction thingId tdTitle name a).inputSchema.required =
          some (Json.arr [Json.str "value"]))
    ∧ (∀ x : Json, (translateAction thingId tdTitle name a).inputWrapped = true →
        (invokeActionTool (translateAction thingId tdTitle name a)
          (some (Json.obj [("value", x)]))).params = some x) := by
  have htruthy : jsTruthy s = true := by
    cases s <;> simp_all [Json.isObj, jsTruthy]
  have hwrapped : (translateAction thingId tdTitle name a).inputWrapped =
      (buildActionInputSchema (some s)).2 := by
    simp [translateAction, hin]
  have hschema : (translateAction thingId tdTitle name a).inputSchema =
      (buildActionInputSchema (some s)).1 := by
    simp [translateAction, hin]
  refine ⟨?_, ?_, ?_⟩
  · rw [hwrapped]
    simp only [buildActionInputSchema, htruthy]
    by_cases hprops : isObjectWithProps s <;> simp [hprops]
  · intro hnot
    rw [hschema]
    simp only [buildActionInputSchema, htruthy, hnot]
    simp
  · intro x hw
    unfold invokeActionTool invokeParams
    rw [hw]
    simp [jsTruthy, getField]

/-- Witness for C4: the primitive schema `(type : number)` is wrapped, and
invoking the wrapped tool with `(value : 42)` reaches the invoker as `42`. -/
theorem wot_c4_witness :
    (translateAction "lamp" "Lamp" "dim"
      ⟨none, some (Json.obj [("type", Json.str "number")])⟩).inputWrapped = true
    ∧ (invokeActionTool
        (translateAction "lamp" "Lamp" "dim"
          ⟨none, some (Json.obj [("type", Json.str "number")])⟩)
        (some (Json.obj [("value", Json.num 42)]))).params = some (Json.num 42) := by
  have h := wot_c4 (Json.obj [("type", Json.str "number")])
    ⟨none, some (Json.obj [("type", Json.str "number")])⟩ rfl rfl "lamp" "Lamp" "dim"
  refine ⟨h.1.mpr rfl, h.2.2 (Json.num 42) (h.1.mpr rfl)⟩

/-! ## Translated entities (src/translator/types.ts) -/

structure TranslatedProperty where
  uri : String
  name : String
  description : Option String
  mimeType : String
  writable : Bool
  wotName : String
  schema : Option Json

structure TranslatedEvent where
  uri : String
  name : String
  description : Option String
  mimeType : String
  wotName : String
  schema : Option Json

structure TranslatedThing where
  id : String
  title : String
  description : Option String
  properties : List TranslatedProperty
  actions : List TranslatedAction
  events : List TranslatedEvent

/-! ## McpServer (src/server/McpServer.ts): tool and resource registration -/

/-- The `[^a-z0-9]/gi` class: case-insensitive alphanumeric. -/
def isAlnumCI (c : Char) : Bool :=
  isLowerAlnum c || (decide ('A' ≤ c) && decide (c ≤ 'Z'))

/-- `replace(/[^a-z0-9]/gi, '_')`: every non-alphanumeric character becomes
one underscore. -/
def sanToolStr (s : String) : String :=
  String.mk (s.data.map (fun c => if isAlnumCI c then c else '_'))

/-- Consume a literal pattern at the front of a character list. -/
def dropLit : List Char → List Char → Option (List Char)
  | [], l => some l
  | _ :: _, [] => none
  | p :: ps, c :: cs => if c = p then dropLit ps cs else none

/-- The anchored match `^wot:\/\/([^/]+)\/properties\/(.+)$` at the head of
the list: thing id up to the first slash, then the literal
`/properties/`, then a non-empty remainder. -/
def parsePropAt (l : List Char) : Option (String × String) :=
  match dropLit "wot://".data l with
  | none => none
  | some r1 =>
    let seg := r1.takeWhile (fun c => !(c = '/'))
    if seg.isEmpty then none
    else
      match dropLit "/properties/".data (r1.drop seg.length) with
      | none => none
      | some r3 => if r3.isEmpty then none else some (String.mk seg, String.mk r3)

/-- The unanchored `match(/wot:\/\/([^/]+)\/properties\/(.+)/)`: the
leftmost position where the anchored pattern matches. -/
def findPropMatch : List Char → Option (String × String)
  | [] => none
  | c :: rest =>
    match parsePropAt (c :: rest) with
    | some r => some r
    | none => findPropMatch rest

/-- `uri.replace(/^wot:\/\//, '')`. -/
def stripScheme (s : String) : String :=
  match dropLit "wot://".data s.data with
  | some r => String.mk r
  | none => s

/-- One registration performed on an SDK server instance. -/
inductive Registration where
  | tool (toolName : String)
  | resource (resName uri : String)
deriving DecidableEq

def isToolReg : Registration → Bool
  | Registration.tool _ => true
  | Registration.resource _ _ => false

/-- Getter tool name `get_{propName}_{thingId}` (underscore-sanitized),
falling back to the whole scheme-stripped uri when the pattern fails. -/
def propGetterToolName (p : TranslatedProperty) : String :=
  match parsePropAt p.uri.data with
  | some (thingId, propName) => "get_" ++ sanToolStr propName ++ "_" ++ sanToolStr thingId
  | none => "get_" ++ sanToolStr (stripScheme p.uri)

/-- Setter tool name `set_{propName}_{thingId}`, same fallback. -/
def propSetterToolName (p : TranslatedProperty) : String :=
  match parsePropAt p.uri.data with
  | some (thingId, propName) => "set_" ++ sanToolStr propName ++ "_" ++ sanToolStr thingId
  | none => "set_" ++ sanToolStr (stripScheme p.uri)

/-- Action tool name `{actionName}_{thingId}`. -/
def actionToolName (a : TranslatedAction) : String :=
  sanToolStr a.wotName ++ "_" ++ sanToolStr a.thingId

/-- Explicit strategy, one property: a getter tool, plus a setter tool only
when the property is writable. -/
def explicitPropRegs (p : TranslatedProperty) : List Registration :=
  Registration.tool (propGetterToolName p) ::
    (if p.writable then [Registration.tool (propSetterToolName p)] else [])

/-- Generic strategy: the four fixed tools of `registerGenericTools`. -/
def genericToolRegs : List Registration :=
  [Registration.tool "list_devices", Registration.tool "read_property",
   Registration.tool "write_property", Registration.tool "invoke_action"]

inductive ToolStrategy where
  | explicitStrategy
  | genericStrategy
deriving DecidableEq

/-- `applyThingToAllServers`, effect on one server: per-thing tool
registrations under the current strategy, then the thing's events as
resources. -/
def applyThingRegs (strategy : ToolStrategy) (thing : TranslatedThing) : List Registration :=
  (match strategy with
   | ToolStrategy.explicitStrategy =>
     thing.properties.flatMap explicitPropRegs
       ++ thing.actions.map (fun a => Registration.tool (actionToolName a))
   | ToolStrategy.genericStrategy => [])
  ++ thing.events.map (fun e => Registration.resource e.name e.uri)

/-- The shared capability registry (maps keyed by uri / tool name). -/
structure Registry where
  things : List (String × TranslatedThing)
  properties : List (String × TranslatedProperty)
  actions : List (String × TranslatedAction)
  events : List (String × TranslatedEvent)

def Registry.empty : Registry := ⟨[], [], [], []⟩

/-- `initializeServer`: register every currently known capability on a
fresh server instance — per-property and per-action tools (explicit) or the
four generic tools, then every event as a resource. -/
def initServerRegs (strategy : ToolStrategy) (reg : Registry) : List Registration :=
  (match strategy with
   | ToolStrategy.explicitStrategy =>
     (reg.properties.map Prod.snd).flatMap explicitPropRegs
       ++ (reg.actions.map Prod.snd).map (fun a => Registration.tool (actionToolName a))
   | ToolStrategy.genericStrategy => genericToolRegs)
  ++ (reg.events.map Prod.snd).map (fun e => Registration.resource e.name e.uri)

theorem actionRegs_tools (l : List TranslatedAction) :
    ((l.map (fun a => Registration.tool (actionToolName a))).filter isToolReg).length =
      l.length := by
  induction l with
  | nil => simp
  | cons a rest ih => simp [isToolReg, ih]

theorem eventRegs_tools (l : List TranslatedEvent) :
    ((l.map (fun e => Registration.resource e.name e.uri)).filter isToolReg).length = 0 := by
  induction l with
  | nil => simp
  | cons e rest ih => simp [isToolReg, ih]

theorem explicitPropRegs_tools (l : List TranslatedProperty) :
    ((l.flatMap explicitPropRegs).filter isToolReg).length =
      l.length + (l.filter (fun p => p.writable)).length := by
  induction l with
  | nil => simp
  | cons p rest ih =>
    rw [List.flatMap_cons, List.filter_append, List.length_append, ih]
    by_cases hw : p.writable <;>
      simp [explicitPropRegs, isToolReg, hw] <;> omega

/-- C8: under the explicit strategy a thing with P properties (W writable)
and A actions contributes exactly P + W + A tool registrations; its events
appear only as resource registrations; and a freshly initialized server
gets the same counts over the whole registry. -/
theorem wot_c8 (thing : TranslatedThing) :
    (((applyThingRegs ToolStrategy.explicitStrategy thing).filter isToolReg).length =
      thing.properties.length + (thing.properties.filter (fun p => p.writable)).length
        + thing.actions.length)
    ∧ ((applyThingRegs ToolStrategy.explicitStrategy thing).filter
        (fun r => !isToolReg r)) =
      thing.events.map (fun e => Registration.resource e.name e.uri)
    ∧ (∀ reg : Registry,
        ((initServerRegs ToolStrategy.explicitStrategy reg).filter isToolReg).length =
          reg.properties.length
            + ((reg.properties.map Prod.snd).filter (fun p => p.writable)).length
            + reg.actions.length) := by
  refine ⟨?_, ?_, ?_⟩
  · unfold applyThingRegs
    rw [List.filter_append, List.length_append, List.filter_append, List.length_append,
      explicitPropRegs_tools, actionRegs_tools, eventRegs_tools]
    omega
  · unfold applyThingRegs
    rw [List.filter_append]
    have h1 : ((thing.properties.flatMap explicitPropRegs
        ++ thing.actions.map (fun a => Registration.tool (actionToolName a))).filter
          (fun r => !isToolReg r)) = [] := by
      rw [List.filter_append, List.filter_eq_nil_iff.mpr, List.filter_eq_nil_iff.mpr]
      · simp
      · intro r hr
        rcases List.mem_map.mp hr with ⟨a, _, ha⟩
        subst ha
        simp [isToolReg]
      · intro r hr
        rcases List.mem_flatMap.mp hr with ⟨p, _, hp⟩
        rcases List.mem_cons.mp hp with h | h
        · subst h; simp [isToolReg]
        · by_cases hw : p.writable
          · rw [if_pos hw] at h
            rcases List.mem_singleton.mp h with rfl
            simp [isToolReg]
          · rw [if_neg hw] at h
            simp at h
    rw [h1, List.nil_append, List.filter_eq_self.mpr]
    intro r hr
    rcases List.mem_map.mp hr with ⟨e, _, he⟩
    subst he
    simp [isToolReg]
  · intro reg
    unfold initServerRegs
    rw [List.filter_append, List.length_append, List.filter_append, List.length_append,
      explicitPropRegs_tools, actionRegs_tools, eventRegs_tools]
    simp

/-! ## Sessions and server state -/

structure McpConfig where
  name : String
  version : String
  eventBufferSize : Option Nat
  toolStrategy : Option ToolStrategy

/-- `this.config.toolStrategy || 'explicit'`. -/
def McpConfig.strategy (c : McpConfig) : ToolStrategy :=
  c.toolStrategy.getD ToolStrategy.explicitStrategy

/-- One SDK server instance together with its side tables: the
registrations performed on it, its subscription set
(`serverSubscriptions`), and whether a transport is connected. -/
structure SessionRec where
  regs : List Registration
  subs : List String
  connected : Bool
deriving DecidableEq

/-- The whole McpServer state: shared registry and event buffer, the
optional stdio singleton, and the multiplexed sessions keyed by id. -/
structure McpState where
  cfg : McpConfig
  registry : Registry
  eventBuffer : EventBuffer
  stdio : Option SessionRec
  sessions : List (String × SessionRec)

/-- The server list both notification loops build: stdio first, then every
open session. -/
def serversOf (st : McpState) : List (Option String × SessionRec) :=
  (match st.stdio with
   | some s => [(none, s)]
   | none => [])
  ++ st.sessions.map (fun p => (some p.1, p.2))

/-- A notification sent to one server instance. -/
structure Note where
  target : Option String
  method : String
  uri : Option String
deriving DecidableEq

def wotEventUri (thingId eventName : String) : String :=
  "wot://" ++ thingId ++ "/events/" ++ eventName

/-- `handleWotEvent`: buffer the event unconditionally, then send
`notifications/resources/updated` to every server that has a transport and
has the uri in its subscription set. -/
def handleWotEvent (st : McpState) (now : Int) (thingId eventName data : String) :
    McpState × List Note :=
  let uri := wotEventUri thingId eventName
  let eb := (st.eventBuffer.push now uri eventName data).1
  let notes := (serversOf st).filterMap (fun p =>
    if p.2.connected && p.2.subs.contains uri then
      some ⟨p.1, "notifications/resources/updated", some uri⟩
    else none)
  ({ st with eventBuffer := eb }, notes)

theorem nodup_keys_eq {β : Type} (l : List (String × β)) (hnd : (l.map Prod.fst).Nodup)
    (k : String) (a b : β) (ha : (k, a) ∈ l) (hb : (k, b) ∈ l) : a = b := by
  induction l with
  | nil => simp at ha
  | cons hd tl ih =>
    obtain ⟨k0, v0⟩ := hd
    rw [List.map_cons, List.nodup_cons] at hnd
    rcases List.mem_cons.mp ha with h1 | h1 <;> rcases List.mem_cons.mp hb with h2 | h2
    · injection h1 with hk1 hv1
      injection h2 with hk2 hv2
      rw [hv1, hv2]
    · exfalso
      injection h1 with hk1 hv1
      apply hnd.1
      have hmm : (k, b).1 ∈ tl.map Prod.fst := List.mem_map_of_mem Prod.fst h2
      rwa [← hk1]
    · exfalso
      injection h2 with hk2 hv2
      apply hnd.1
      have hmm : (k, a).1 ∈ tl.map Prod.fst := List.mem_map_of_mem Prod.fst h1
      rwa [← hk2]
    · exact ih hnd.2 h1 h2

theorem serversOf_some_mem (st : McpState) (id : String) (srec : SessionRec)
    (h : (some id, srec) ∈ serversOf st) : (id, srec) ∈ st.sessions := by
  unfold serversOf at h
  rcases List.mem_append.mp h with h | h
  · exfalso
    cases hstd : st.stdio with
    | none => rw [hstd] at h; simp at h
    | some s0 => rw [hstd] at h; simp at h
  · rcases List.mem_map.mp h with ⟨⟨id2, s2⟩, hmem2, heq⟩
    have he1 : some id2 = some id := congrArg Prod.fst heq
    have he2 : s2 = srec := congrArg Prod.snd heq
    have he1 : id2 = id := Option.some.inj he1
    subst he1
    subst he2
    exact hmem2

/-- C1: a device event is always pushed into the event buffer, and a
`notifications/resources/updated` note for the event uri goes to a live
(connected) session iff that session subscribed to the uri. -/
theorem wot_c1 (st : McpState) (now : Int) (thingId eventName data : String)
    (hnd : (st.sessions.map Prod.fst).Nodup) :
    (handleWotEvent st now thingId eventName data).1.eventBuffer =
      (st.eventBuffer.push now (wotEventUri thingId eventName) eventName data).1
    ∧ (∀ (id : String) (s : SessionRec), (id, s) ∈ st.sessions → s.connected = true →
        (Note.mk (some id) "notifications/resources/updated"
            (some (wotEventUri thingId eventName)) ∈
          (handleWotEvent st now thingId eventName data).2
         ↔ wotEventUri thingId eventName ∈ s.subs)) := by
  refine ⟨rfl, ?_⟩
  intro id s hmem hconn
  constructor
  · intro hin
    rcases List.mem_filterMap.mp hin with ⟨⟨tgt, srec⟩, hsrv, hcond⟩
    by_cases hc : (srec.connected && srec.subs.contains (wotEventUri thingId eventName)) = true
    · rw [if_pos hc] at hcond
      have hnote := Option.some.inj hcond
      have htgt : tgt = some id := congrArg Note.target hnote
      subst htgt
      have hsess := serversOf_some_mem st id srec hsrv
      have heq : srec = s := nodup_keys_eq st.sessions hnd id srec s hsess hmem
      subst heq
      exact List.elem_iff.mp ((Bool.and_eq_true _ _).mp hc).2
    · rw [if_neg hc] at hcond
      simp at hcond
  · intro hsub
    apply List.mem_filterMap.mpr
    refine ⟨(some id, s), ?_, ?_⟩
    · unfold serversOf
      exact List.mem_append_right _ (List.mem_map_of_mem (fun p => (some p.1, p.2)) hmem)
    · simp only [hconn, Bool.true_and]
      rw [if_pos (List.elem_iff.mpr hsub)]

/-- Witness state for C1: sessions A (subscribed to the lamp overheated
event) and B (not subscribed), both connected. -/
def c1State : McpState :=
  { cfg := ⟨"wot-mcp", "1.0.0", none, none⟩,
    registry := Registry.empty,
    eventBuffer := EventBuffer.ofOptions none none,
    stdio := none,
    sessions :=
      [("A", ⟨[], [wotEventUri "lamp" "overheated"], true⟩),
       ("B", ⟨[], [], true⟩)] }

/-- Witness for C1: pushing the event delivers a notification to session A
and none to session B. -/
theorem wot_c1_witness :
    (Note.mk (some "A") "notifications/resources/updated"
        (some (wotEventUri "lamp" "overheated")) ∈
      (handleWotEvent c1State 0 "lamp" "overheated" "hot").2)
    ∧ ¬(Note.mk (some "B") "notifications/resources/updated"
        (some (wotEventUri "lamp" "overheated")) ∈
      (handleWotEvent c1State 0 "lamp" "overheated" "hot").2) := by
  have h := wot_c1 c1State 0 "lamp" "overheated" "hot" (by decide)
  constructor
  · exact (h.2 "A" ⟨[], [wotEventUri "lamp" "overheated"], true⟩ (by decide) rfl).mpr
      (by decide)
  · intro hmem
    have := (h.2 "B" ⟨[], [], true⟩ (by decide) rfl).mp hmem
    simp at this

/-! ## Session multiplexing (streamable-http handler in `start`) -/

inductive HttpOutcome where
  | newSession (id : String)
  | routed (id : String)
  | notFound (msg : String)
deriving DecidableEq

/-- A fresh session server: `createMcpServerInstance` + `initializeServer`
(every currently registered capability) + `setupSubscriptionHandlers`
(empty subscription set) + `connect(transport)`. -/
def newSessionRec (st : McpState) : SessionRec :=
  { regs := initServerRegs st.cfg.strategy st.registry,
    subs := [],
    connected := true }

/-- The `/mcp` request handler in multiplexed mode.  `freshId` stands for
the `crypto.randomUUID()` drawn for a new session. -/
def handleMcpRequest (st : McpState) (freshId : String) (sessionId : Option String) :
    McpState × HttpOutcome :=
  match sessionId with
  | none =>
    ({ st with sessions := st.sessions ++ [(freshId, newSessionRec st)] },
     HttpOutcome.newSession freshId)
  | some sid =>
    match findKey sid st.sessions with
    | none => (st, HttpOutcome.notFound "Session not found")
    | some _ => (st, HttpOutcome.routed sid)

/-- C7: an unknown session id yields "Session not found" and leaves the
state untouched (no session created); a request without a session id
creates one fresh session whose server carries every currently registered
capability; a known session id routes to the existing session. -/
theorem wot_c7 (st : McpState) (freshId sid : String)
    (hfresh : findKey freshId st.sessions = none) :
    (findKey sid st.sessions = none →
      handleMcpRequest st freshId (some sid) = (st, HttpOutcome.notFound "Session not found"))
    ∧ (findKey freshId (handleMcpRequest st freshId none).1.sessions =
        some (newSessionRec st)
       ∧ (newSessionRec st).regs = initServerRegs st.cfg.strategy st.registry
       ∧ (handleMcpRequest st freshId none).2 = HttpOutcome.newSession freshId)
    ∧ (∀ s : SessionRec, findKey sid st.sessions = some s →
        handleMcpRequest st freshId (some sid) = (st, HttpOutcome.routed sid)) := by
  refine ⟨?_, ⟨?_, rfl, rfl⟩, ?_⟩
  · intro hnone
    simp only [handleMcpRequest, hnone]
  · show findKey freshId (st.sessions ++ [(freshId, newSessionRec st)]) =
      some (newSessionRec st)
    exact findKey_append_last freshId _ st.sessions hfresh
  · intro s hs
    simp only [handleMcpRequest, hs]

/-- Witness state for C7: one live session "K". -/
def c7State : McpState :=
  { cfg := ⟨"wot-mcp", "1.0.0", none, none⟩,
    registry := Registry.empty,
    eventBuffer := EventBuffer.ofOptions none none,
    stdio := none,
    sessions := [("K", ⟨[], [], true⟩)] }

/-- Witness for C7: the unknown id "X" gets "Session not found" with the
state unchanged, and a header-less request creates session "F". -/
theorem wot_c7_witness :
    handleMcpRequest c7State "F" (some "X") =
      (c7State, HttpOutcome.notFound "Session not found")
    ∧ findKey "F" (handleMcpRequest c7State "F" none).1.sessions =
        some (newSessionRec c7State) := by
  have h := wot_c7 c7State "F" "X" (by decide)
  exact ⟨h.1 (by decide), h.2.1.1⟩

/-! ## Thing registration and the list-changed broadcast -/

/-- `McpServer.registerThing`: store the thing and its
properties/actions/events into the registry maps, initialize an event
buffer per event uri, then apply the new capabilities to the stdio server
and to every open session (`applyThingToAllServers`). -/
def registerThing (st : McpState) (thing : TranslatedThing) : McpState :=
  let reg := st.registry
  let reg2 : Registry :=
    { things := setKey thing.id thing reg.things,
      properties := thing.properties.foldl (fun m p => setKey p.uri p m) reg.properties,
      actions := thing.actions.foldl (fun m a => setKey a.name a m) reg.actions,
      events := thing.events.foldl (fun m e => setKey e.uri e m) reg.events }
  let eb := thing.events.foldl (fun b e => EventBuffer.initBuffer b e.uri) st.eventBuffer
  let regs := applyThingRegs st.cfg.strategy thing
  { st with
    registry := reg2,
    eventBuffer := eb,
    stdio := st.stdio.map (fun s => { s with regs := s.regs ++ regs }),
    sessions := st.sessions.map (fun p => (p.1, { p.2 with regs := p.2.regs ++ regs })) }

/-- `notifyResourceListChanged`: send
`notifications/resources/list_changed` to every server with a transport,
regardless of subscriptions. -/
def notifyResourceListChanged (st : McpState) : List Note :=
  (serversOf st).filterMap (fun p =>
    if p.2.connected then some ⟨p.1, "notifications/resources/list_changed", none⟩
    else none)

/-- `WotMcpBridge.addThing` (server-visible effects): register the thing,
then broadcast the list change.  (The WoT-side consume/subscribe steps talk
to the external device layer.) -/
def bridgeAddThing (st : McpState) (thing : TranslatedThing) : McpState × List Note :=
  let st2 := registerThing st thing
  (st2, notifyResourceListChanged st2)

theorem initBuffer_preserves_some (uri : String) (v : List BufferedEvent) :
    ∀ (evs : List TranslatedEvent) (eb : EventBuffer),
      findKey uri eb.buffers = some v →
      findKey uri (evs.foldl (fun b e => EventBuffer.initBuffer b e.uri) eb).buffers =
        some v := by
  intro evs
  induction evs with
  | nil => intro eb h; simpa using h
  | cons e rest ih =>
    intro eb h
    rw [List.foldl_cons]
    apply ih
    unfold EventBuffer.initBuffer
    cases hf : findKey e.uri eb.buffers with
    | some b => exact h
    | none =>
      simp only
      by_cases he : e.uri = uri
      · rw [he] at hf
        rw [hf] at h
        exact absurd h (by simp)
      · rw [findKey_setKey_ne uri e.uri [] eb.buffers he]
        exact h

theorem initBuffer_fold_lookup (evs : List TranslatedEvent) (uri : String) :
    ∀ eb : EventBuffer, findKey uri eb.buffers = none → (∃ e ∈ evs, e.uri = uri) →
      findKey uri (evs.foldl (fun b e => EventBuffer.initBuffer b e.uri) eb).buffers =
        some [] := by
  induction evs with
  | nil =>
    intro eb _ hex
    simp at hex
  | cons e rest ih =>
    intro eb hnone hex
    rw [List.foldl_cons]
    by_cases he : e.uri = uri
    · apply initBuffer_preserves_some
      unfold EventBuffer.initBuffer
      rw [he, hnone]
      exact findKey_setKey_self uri [] eb.buffers
    · apply ih
      · unfold EventBuffer.initBuffer
        cases hf : findKey e.uri eb.buffers with
        | some b => exact hnone
        | none =>
          simp only
          rw [findKey_setKey_ne uri e.uri [] eb.buffers he]
          exact hnone
      · rcases hex with ⟨e2, hmem, huri⟩
        rcases List.mem_cons.mp hmem with h | h
        · exact absurd (h ▸ huri) he
        · exact ⟨e2, h, huri⟩

theorem foldl_setKey_isSome {α β : Type} (key : α → String) (val : α → β) (k : String) :
    ∀ (l : List α) (m0 : List (String × β)),
      ((∃ x ∈ l, key x = k) ∨ (findKey k m0).isSome = true) →
      (findKey k (l.foldl (fun m x => setKey (key x) (val x) m) m0)).isSome = true := by
  intro l
  induction l with
  | nil =>
    intro m0 h
    rcases h with h | h
    · simp at h
    · simpa using h
  | cons x rest ih =>
    intro m0 h
    rw [List.foldl_cons]
    by_cases hk : key x = k
    · apply ih
      right
      rw [hk, findKey_setKey_self]
      rfl
    · rcases h with h | h
      · rcases h with ⟨y, hy, hky⟩
        rcases List.mem_cons.mp hy with h1 | h1
        · exact absurd (h1 ▸ hky) hk
        · exact ih (setKey (key x) (val x) m0) (Or.inl ⟨y, h1, hky⟩)
      · apply ih
        right
        rw [findKey_setKey_ne k (key x) (val x) m0 hk]
        exact h

/-- C9: registering a thing stores it (and its capabilities) in the shared
registry, initializes an empty buffer per event uri, appends the new
registrations to the stdio server and to every open session, and finally
broadcasts `notifications/resources/list_changed` to every live session
unconditionally. -/
theorem wot_c9 (st : McpState) (thing : TranslatedThing) :
    findKey thing.id (bridgeAddThing st thing).1.registry.things = some thing
    ∧ (∀ p ∈ thing.properties,
        (findKey p.uri (bridgeAddThing st thing).1.registry.properties).isSome = true)
    ∧ (∀ a ∈ thing.actions,
        (findKey a.name (bridgeAddThing st thing).1.registry.actions).isSome = true)
    ∧ (∀ e ∈ thing.events,
        (findKey e.uri (bridgeAddThing st thing).1.registry.events).isSome = true)
    ∧ (∀ e ∈ thing.events, findKey e.uri st.eventBuffer.buffers = none →
        findKey e.uri (bridgeAddThing st thing).1.eventBuffer.buffers = some [])
    ∧ (bridgeAddThing st thing).1.sessions =
        st.sessions.map (fun p =>
          (p.1, { p.2 with regs := p.2.regs ++ applyThingRegs st.cfg.strategy thing }))
    ∧ (bridgeAddThing st thing).1.stdio =
        st.stdio.map (fun s =>
          { s with regs := s.regs ++ applyThingRegs st.cfg.strategy thing })
    ∧ (∀ (id : String) (s : SessionRec), (id, s) ∈ st.sessions → s.connected = true →
        Note.mk (some id) "notifications/resources/list_changed" none ∈
          (bridgeAddThing st thing).2) := by
  refine ⟨?_, ?_, ?_, ?_, ?_, rfl, rfl, ?_⟩
  · exact findKey_setKey_self thing.id thing st.registry.things
  · intro p hp
    exact foldl_setKey_isSome (fun q => q.uri) (fun q => q) p.uri thing.properties
      st.registry.properties (Or.inl ⟨p, hp, rfl⟩)
  · intro a ha
    exact foldl_setKey_isSome (fun b => b.name) (fun b => b) a.name thing.actions
      st.registry.actions (Or.inl ⟨a, ha, rfl⟩)
  · intro e he
    exact foldl_setKey_isSome (fun f => f.uri) (fun f => f) e.uri thing.events
      st.registry.events (Or.inl ⟨e, he, rfl⟩)
  · intro e he hnone
    exact initBuffer_fold_lookup thing.events e.uri st.eventBuffer hnone ⟨e, he, rfl⟩
  · intro id s hmem hconn
    apply List.mem_filterMap.mpr
    refine ⟨(some id, { s with regs := s.regs ++ applyThingRegs st.cfg.strategy thing }),
      ?_, ?_⟩
    · unfold serversOf
      apply List.mem_append_right
      show _ ∈ (bridgeAddThing st thing).1.sessions.map (fun p => (some p.1, p.2))
      have : (id, { s with regs := s.regs ++ applyThingRegs st.cfg.strategy thing }) ∈
          (bridgeAddThing st thing).1.sessions := by
        show _ ∈ st.sessions.map (fun p =>
          (p.1, { p.2 with regs := p.2.regs ++ applyThingRegs st.cfg.strategy thing }))
        exact List.mem_map_of_mem _ hmem
      exact List.mem_map_of_mem (fun p => (some p.1, p.2)) this
    · simp only [hconn]
      rfl

/-- Witness state for C9: one connected session "A" and an empty registry. -/
def c9State : McpState :=
  { cfg := ⟨"wot-mcp", "1.0.0", none, none⟩,
    registry := Registry.empty,
    eventBuffer := EventBuffer.ofOptions none none,
    stdio := none,
    sessions := [("A", ⟨[], [], true⟩)] }

/-- Witness thing for C9: one event, no properties or actions. -/
def c9Thing : TranslatedThing :=
  { id := "lamp", title := "Lamp", description := none,
    properties := [], actions := [],
    events := [⟨"wot://lamp/events/overheated", "overheated", none,
      "application/json", "overheated", none⟩] }

/-- Witness for C9: after registration the thing is stored, its event
buffer is initialized empty, and session A receives the list-changed
broadcast. -/
theorem wot_c9_witness :
    findKey "lamp" (bridgeAddThing c9State c9Thing).1.registry.things = some c9Thing
    ∧ findKey "wot://lamp/events/overheated"
        (bridgeAddThing c9State c9Thing).1.eventBuffer.buffers = some []
    ∧ Note.mk (some "A") "notifications/resources/list_changed" none ∈
        (bridgeAddThing c9State c9Thing).2 := by
  have h := wot_c9 c9State c9Thing
  refine ⟨h.1, ?_, ?_⟩
  · exact h.2.2.2.2.1 ⟨"wot://lamp/events/overheated", "overheated", none,
      "application/json", "overheated", none⟩ (by simp [c9Thing]) (by decide)
  · exact h.2.2.2.2.2.2.2 "A" ⟨[], [], true⟩ (by decide) rfl

/-! ## Property-write tool bodies -/

structure ToolResult where
  isError : Bool
  text : String
deriving DecidableEq

/-- The arguments passed to the external `writeProperty` callback. -/
structure WriteCall where
  thingId : String
  propName : String
  value : Option Json

/-- `invokePropertySetter`: parse the stored uri (unanchored regex match),
then call the external writer with `args?.value` and return a confirmation
payload.  There is no writable check here. -/
def invokePropertySetter (prop : TranslatedProperty) (args : Option Json) :
    Except String (ToolResult × WriteCall) :=
  match findPropMatch prop.uri.data with
  | none => Except.error ("Invalid property URI: " ++ prop.uri)
  | some (thingId, propName) =>
    Except.ok
      (⟨false, "Property " ++ propName ++ " updated successfully"⟩,
       ⟨thingId, propName, args.bind (fun a => getField a "value")⟩)

/-- The generic `write_property` tool body: resolve the device and the
property by exact name, fail on a read-only property before delegating to
`invokePropertySetter`; every thrown error becomes an `isError` result.
The second component is the external write call, if one was made. -/
def writePropertyTool (things : List (String × TranslatedThing))
    (deviceId propName : String) (value : Json) : ToolResult × Option WriteCall :=
  match findKey deviceId things with
  | none => (⟨true, "Error: Device " ++ deviceId ++ " not found."⟩, none)
  | some thing =>
    match thing.properties.find? (fun p => p.wotName == propName) with
    | none =>
      (⟨true, "Error: Property " ++ propName ++ " not found on device "
          ++ deviceId ++ "."⟩, none)
    | some prop =>
      if prop.writable then
        match invokePropertySetter prop (some (Json.obj [("value", value)])) with
        | Except.error msg => (⟨true, "Error: " ++ msg⟩, none)
        | Except.ok r => (r.1, some r.2)
      else (⟨true, "Error: Property " ++ propName ++ " is read-only."⟩, none)

/-- A concrete read-only property. -/
def roProp : TranslatedProperty :=
  ⟨"wot://lamp/properties/status", "Status", none, "application/json",
   false, "status", none⟩

/-- C6 counterexample: the setter primitive (the explicit-strategy setter
path) does not fail on a non-writable property — called on `roProp`
(writable = false) it returns a success payload and the external write
function IS called, contradicting the claim. -/
theorem wot_c6_counterexample :
    roProp.writable = false
    ∧ invokePropertySetter roProp (some (Json.obj [("value", Json.str "on")])) =
        Except.ok
          (⟨false, "Property status updated successfully"⟩,
           ⟨"lamp", "status", some (Json.str "on")⟩) :=
  ⟨rfl, rfl⟩

/-- C6 amended: the generic `write_property` tool on a non-writable
property returns an error result without any external write call, and the
explicit strategy registers no setter tool for a non-writable property (so
no explicit setter path exists for it); the writable check lives in those
two places, not in the setter primitive. -/
theorem wot_c6_amended (things : List (String × TranslatedThing))
    (deviceId propName : String) (value : Json) (thing : TranslatedThing)
    (prop : TranslatedProperty)
    (h1 : findKey deviceId things = some thing)
    (h2 : thing.properties.find? (fun p => p.wotName == propName) = some prop)
    (h3 : prop.writable = false) :
    (writePropertyTool things deviceId propName value).1.isError = true
    ∧ (writePropertyTool things deviceId propName value).2 = none
    ∧ (∀ q : TranslatedProperty, q.writable = false →
        explicitPropRegs q = [Registration.tool (propGetterToolName q)]) := by
  have hres : writePropertyTool things deviceId propName value =
      (⟨true, "Error: Property " ++ propName ++ " is read-only."⟩, none) := by
    simp only [writePropertyTool, h1, h2, h3]
    simp
  rw [hres]
  exact ⟨rfl, rfl, fun q hq => by simp [explicitPropRegs, hq]⟩

/-- Witness device for C6: a lamp with only the read-only property. -/
def c6Lamp : TranslatedThing :=
  { id := "lamp", title := "Lamp", description := none,
    properties := [roProp], actions := [], events := [] }

/-- Witness things list for C6. -/
def c6Things : List (String × TranslatedThing) := [("lamp", c6Lamp)]

/-- Witness for C6 (amended): writing `status` on the lamp errors out with
no external write call. -/
theorem wot_c6_witness :
    (writePropertyTool c6Things "lamp" "status" (Json.str "on")).1.isError = true
    ∧ (writePropertyTool c6Things "lamp" "status" (Json.str "on")).2 = none := by
  have h := wot_c6_amended c6Things "lamp" "status" (Json.str "on") c6Lamp roProp
    rfl rfl rfl
  exact ⟨h.1, h.2.1⟩
